import Mathlib

/-!
Shallow embedding of `src/kafka-log/src/main.rs`: a single Maelstrom node of a
replicated, offset-addressed append log. Rust `HashMap`s are modelled as
association lists (the handlers only ever access them key-wise), `i64` as
`Int`, `usize` as `Nat`, and a handler that would panic (a failed `unwrap`)
or has no compilable body is modelled as `none`.
-/

namespace KafkaLog

/-- A log record, the source's `[i64; 2]`: index 0 is the offset, index 1 the
value. -/
abbrev Msg := Int × Int

/-- Key-wise view of a Rust `HashMap` as an association list: `HashMap::get`. -/
def alLookup {κ α : Type} [DecidableEq κ] (k : κ) : List (κ × α) → Option α
  | [] => none
  | (k', v) :: rest => if k' = k then some v else alLookup k rest

/-- The `entry(k).{and_modify/or_insert/or_default}` family: replace the value
bound to `k` by `f (some old)`, or bind `k` to `f none` when absent. -/
def alModify {κ α : Type} [DecidableEq κ] (k : κ) (f : Option α → α) :
    List (κ × α) → List (κ × α)
  | [] => [(k, f none)]
  | (k', v) :: rest =>
    if k' = k then (k', f (some v)) :: rest else (k', v) :: alModify k f rest

/-- The `if let Some(v) = map.get_mut(k)` pattern: update the value bound to
`k` when present, change nothing when absent. -/
def alModifyIfPresent {κ α : Type} [DecidableEq κ] (k : κ) (f : α → α) :
    List (κ × α) → List (κ × α)
  | [] => []
  | (k', v) :: rest =>
    if k' = k then (k', f v) :: rest else (k', v) :: alModifyIfPresent k f rest

/-- Rust `slice::partition_point(pred)`: on a slice partitioned by `pred`
(every element satisfying `pred` before every element that does not, which
holds at each call site because the logs are kept offset-sorted) it returns
the index of the first element of the second partition, i.e. the length of
the satisfying prefix. -/
def partitionPoint {α : Type} (p : α → Bool) (l : List α) : Nat :=
  (l.takeWhile p).length

/-- The `Poll` slice (main.rs:178): `&logs[logs.partition_point(|probe| probe[0] < *v)..]`. -/
def rangeFrom (logs : List Msg) (v : Int) : List Msg :=
  logs.drop (partitionPoint (fun probe => probe.1 < v) logs)

/-- The `GetUpdates` slice (main.rs:216): `&logs[..logs.partition_point(|probe| probe[0] <= *v)]`. -/
def rangeUpTo (logs : List Msg) (v : Int) : List Msg :=
  logs.take (partitionPoint (fun probe => probe.1 ≤ v) logs)

/-- The `Sync` drain (main.rs:227-228): `logs.drain(..logs.partition_point(|probe| probe[0] <= v))`,
keeping the part of the log after the drained prefix. -/
def drain (logs : List Msg) (v : Int) : List Msg :=
  logs.drop (partitionPoint (fun probe => probe.1 ≤ v) logs)

/-- The watermark update of the `Sync` handler (main.rs:230-233):
`entry(k).and_modify(|x| *x = v.max(*x)).or_insert(v)`. -/
def advance (cur : Option Int) (v : Int) : Int :=
  match cur with
  | some x => max v x
  | none => v

/-- The committed-log re-sort (main.rs:239): `sort_by(|a, b| a[0].cmp(&b[0]))`,
a stable sort by offset, modelled by the stable `List.insertionSort`. -/
def sortByOffset (l : List Msg) : List Msg :=
  List.insertionSort (fun a b => a.1 ≤ b.1) l

/-- The node state (main.rs:119-130). `Node::default()` is the record with all
fields empty. -/
structure Node where
  node_id : String := ""
  node_id_i64 : Int := 0
  node_ids : List String := []
  topology : List String := []
  commited_offsets : List (String × Int) := []
  offsets_ready_to_commit : List (String × Int) := []
  commited_msgs : List (String × List Msg) := []
  uncommited_msgs : List (String × List Msg) := []
  ongoing_syncs : List (Int × Nat) := []
deriving DecidableEq

/-- `Node::default()` (main.rs:136). -/
def initialNode : Node := {}

/-- The inbound message bodies (main.rs:22-69). -/
inductive RequestBody where
  | Init (msg_id : Int) (node_id : String) (node_ids : List String)
  | Topology (msg_id : Int) (topology : List (String × List String))
  | Poll (msg_id : Int) (offsets : List (String × Int))
  | Send (msg_id : Int) (key : String) (msg : Int)
  | CommitOffsets (msg_id : Int) (offsets : List (String × Int))
  | ListCommittedOffsets (msg_id : Int) (keys : List String)
  | Error
  | GetUpdates (msg_id : Int) (offsets : List (String × Int))
  | GetUpdatesOk (in_reply_to : Int) (updates : List (String × List Msg))
  | Sync (msg_id : Int) (offsets : List (String × Int)) (updates : List (String × List Msg))
  | SyncOk (in_reply_to : Int)
deriving DecidableEq

/-- The outbound message bodies (main.rs:71-117). -/
inductive ResponseBody where
  | InitOk (in_reply_to : Int)
  | TopologyOk (in_reply_to : Int)
  | PollOk (in_reply_to : Int) (msgs : List (String × List Msg))
  | SendOk (in_reply_to : Int) (offset : Int)
  | CommitOffsetsOk (in_reply_to : Int)
  | ListCommittedOffsetsOk (in_reply_to : Int) (offsets : List (String × Int))
  | Error (in_reply_to : Int) (code : Int) (text : String)
  | GetUpdates (msg_id : Int) (offsets : List (String × Int))
  | GetUpdatesOk (in_reply_to : Int) (updates : List (String × List Msg))
  | Sync (msg_id : Int) (offsets : List (String × Int)) (updates : List (String × List Msg))
  | SyncOk (in_reply_to : Int)
deriving DecidableEq

/-- An inbound envelope (main.rs:8-13). -/
structure Request where
  src : String
  dest : String
  body : RequestBody
deriving DecidableEq

/-- An outbound envelope (main.rs:15-20). -/
structure Response where
  src : String
  dest : String
  body : ResponseBody
deriving DecidableEq

/-- One pass of the `Sync` handler's first loop (main.rs:225-234): for one
`(k, v)` pair of the request's offset map, drain the uncommitted log of `k`
up to `v` when present and advance the watermark of `k` to `v`. -/
def syncOffsetStep (acc : Node) (kv : String × Int) : Node :=
  let uncommited := alModifyIfPresent kv.1 (fun logs => drain logs kv.2) acc.uncommited_msgs
  let offsets := alModify kv.1 (fun cur => advance cur kv.2) acc.commited_offsets
  { acc with uncommited_msgs := uncommited, commited_offsets := offsets }

/-- One pass of the `Sync` handler's second loop (main.rs:236-240): for one
`(k, records)` pair of the request's update map, append `records` to the
committed log of `k` (empty when absent) and re-sort it by offset. -/
def syncUpdateStep (acc : Node) (kv : String × List Msg) : Node :=
  let commited := alModify kv.1 (fun cur => sortByOffset (cur.getD [] ++ kv.2)) acc.commited_msgs
  { acc with commited_msgs := commited }

/-- One iteration of the dispatch loop (main.rs:134-275): the state after the
message and the emitted envelopes. `none` models a panic (a failed `unwrap`,
main.rs:150, 158, 247) or the `GetUpdatesOk` arm, whose body (main.rs:260) is
malformed Rust — it names `msg_id` and `offsets` that are not in scope and so
the crate does not compile; the arm has no defined behavior to embed. -/
def handle (node : Node) (req : Request) : Option (Node × List Response) :=
  match req.body with
  | .Init msg_id node_id node_ids =>
    match (node_id.drop 1).toInt? with
    | none => none
    | some n =>
      some ({ node with node_id_i64 := n, node_id := node_id, node_ids := node_ids },
        [⟨req.dest, req.src, .InitOk msg_id⟩])
  | .Topology msg_id topology =>
    match alLookup node.node_id topology with
    | none => none
    | some t =>
      some ({ node with topology := t }, [⟨req.dest, req.src, .TopologyOk msg_id⟩])
  | .Send msg_id key msg =>
    let current := (alLookup key node.uncommited_msgs).getD []
    let offset :=
      match current.getLast? with
      | some x => x.1 + 1
      | none => 0
    let uncommited := alModify key (fun cur => cur.getD [] ++ [(offset, msg)]) node.uncommited_msgs
    some ({ node with uncommited_msgs := uncommited },
      [⟨req.dest, req.src, .SendOk msg_id offset⟩])
  | .Poll msg_id offsets =>
    some (node, [⟨req.dest, req.src, .PollOk msg_id (offsets.map (fun kv =>
      (kv.1, rangeFrom ((alLookup kv.1 node.commited_msgs).getD []) kv.2)))⟩])
  | .CommitOffsets msg_id offsets =>
    some (node, node.node_ids.map (fun node_id =>
      ⟨req.dest, node_id, .GetUpdates msg_id offsets⟩))
  | .ListCommittedOffsets msg_id keys =>
    some (node, [⟨req.dest, req.src, .ListCommittedOffsetsOk msg_id
      (keys.filterMap (fun k => (alLookup k node.commited_offsets).map (fun v => (k, v))))⟩])
  | .Error =>
    some (node, [⟨req.dest, req.src, .Error 0 10 "Boo Not Supported"⟩])
  | .GetUpdates msg_id offsets =>
    some (node, [⟨req.dest, req.src, .PollOk msg_id (offsets.map (fun kv =>
      (kv.1, rangeUpTo ((alLookup kv.1 node.uncommited_msgs).getD []) kv.2)))⟩])
  | .Sync msg_id offsets updates =>
    let n1 := offsets.foldl syncOffsetStep node
    let n2 := updates.foldl syncUpdateStep n1
    some (n2, [⟨req.dest, req.src, .SyncOk msg_id⟩])
  | .SyncOk in_reply_to =>
    match alLookup in_reply_to node.ongoing_syncs with
    | none => none
    | some sync =>
      let syncs := alModifyIfPresent in_reply_to (fun s => s - 1) node.ongoing_syncs
      let node' := { node with ongoing_syncs := syncs }
      if sync - 1 = 0 then
        some (node', [⟨req.dest, req.src, .CommitOffsetsOk in_reply_to⟩])
      else
        some (node', [])
  | .GetUpdatesOk _ _ => none

/-- The states the dispatch loop can put a node in, starting from
`Node::default()`. -/
inductive Reachable : Node → Prop where
  | init : Reachable initialNode
  | step {n n' : Node} {req : Request} {out : List Response} :
      Reachable n → handle n req = some (n', out) → Reachable n'

/-- Offsets strictly increase along a log. -/
def SortedLt (l : List Msg) : Prop := l.Pairwise (fun a b => a.1 < b.1)

/-- Offsets never decrease along a log. -/
def SortedLe (l : List Msg) : Prop := l.Pairwise (fun a b => a.1 ≤ b.1)

instance : DecidablePred SortedLt := fun l =>
  inferInstanceAs (Decidable (l.Pairwise _))

instance : DecidablePred SortedLe := fun l =>
  inferInstanceAs (Decidable (l.Pairwise _))

end KafkaLog

namespace KafkaLog

/-! Association-list lemmas. -/

theorem alLookup_alModify_self {κ α : Type} [DecidableEq κ] (k : κ) (f : Option α → α)
    (m : List (κ × α)) : alLookup k (alModify k f m) = some (f (alLookup k m)) := by
  induction m with
  | nil => simp [alLookup, alModify]
  | cons hd tl ih =>
    obtain ⟨k', v⟩ := hd
    by_cases h : k' = k
    · simp [alLookup, alModify, h]
    · simp [alLookup, alModify, h, ih]

theorem alLookup_alModify_ne {κ α : Type} [DecidableEq κ] {j k : κ} (h : j ≠ k)
    (f : Option α → α) (m : List (κ × α)) : alLookup j (alModify k f m) = alLookup j m := by
  induction m with
  | nil => simp [alLookup, alModify, Ne.symm h]
  | cons hd tl ih =>
    obtain ⟨k', v⟩ := hd
    by_cases hk : k' = k
    · subst hk
      simp [alLookup, alModify, Ne.symm h]
    · simp [alLookup, alModify, hk, ih]

theorem alLookup_alModifyIfPresent_self {κ α : Type} [DecidableEq κ] (k : κ) (f : α → α)
    (m : List (κ × α)) : alLookup k (alModifyIfPresent k f m) = (alLookup k m).map f := by
  induction m with
  | nil => simp [alLookup, alModifyIfPresent]
  | cons hd tl ih =>
    obtain ⟨k', v⟩ := hd
    by_cases h : k' = k
    · simp [alLookup, alModifyIfPresent, h]
    · simp [alLookup, alModifyIfPresent, h, ih]

theorem alLookup_alModifyIfPresent_ne {κ α : Type} [DecidableEq κ] {j k : κ} (h : j ≠ k)
    (f : α → α) (m : List (κ × α)) :
    alLookup j (alModifyIfPresent k f m) = alLookup j m := by
  induction m with
  | nil => simp [alModifyIfPresent]
  | cons hd tl ih =>
    obtain ⟨k', v⟩ := hd
    by_cases hk : k' = k
    · subst hk
      simp [alLookup, alModifyIfPresent, Ne.symm h]
    · simp [alLookup, alModifyIfPresent, hk, ih]

theorem alLookup_mem {κ α : Type} [DecidableEq κ] {k : κ} {v : α} {m : List (κ × α)}
    (h : alLookup k m = some v) : (k, v) ∈ m := by
  induction m with
  | nil => simp [alLookup] at h
  | cons hd tl ih =>
    obtain ⟨k', w⟩ := hd
    by_cases hk : k' = k
    · subst hk
      simp [alLookup] at h
      subst h
      exact List.mem_cons_self _ _
    · rw [alLookup, if_neg hk] at h
      exact List.mem_cons_of_mem _ (ih h)

/-! Slicing lemmas: on an offset-sorted log, the partition-point slices of the
handlers compute offset filters. -/

theorem drop_length_takeWhile {α : Type} (p : α → Bool) (l : List α) :
    l.drop (l.takeWhile p).length = l.dropWhile p := by
  induction l with
  | nil => rfl
  | cons a l ih =>
    by_cases h : p a
    · simp [List.takeWhile_cons_of_pos h, List.dropWhile_cons_of_pos h, ih]
    · simp [List.takeWhile_cons_of_neg h, List.dropWhile_cons_of_neg h]

theorem take_length_takeWhile {α : Type} (p : α → Bool) (l : List α) :
    l.take (l.takeWhile p).length = l.takeWhile p := by
  induction l with
  | nil => rfl
  | cons a l ih =>
    by_cases h : p a
    · simp [List.takeWhile_cons_of_pos h, ih]
    · simp [List.takeWhile_cons_of_neg h]

theorem SortedLt.toLe {l : List Msg} (h : SortedLt l) : SortedLe l :=
  h.imp (fun hab => le_of_lt hab)

theorem dropWhile_eq_filter_of_sorted {P : Msg → Bool} {l : List Msg}
    (hs : SortedLe l) (hP : ∀ a b : Msg, a.1 ≤ b.1 → P b = true → P a = true) :
    l.dropWhile P = l.filter (fun x => !P x) := by
  induction l with
  | nil => rfl
  | cons a l ih =>
    rw [SortedLe, List.pairwise_cons] at hs
    by_cases h : P a
    · rw [List.dropWhile_cons_of_pos h, ih hs.2]
      simp [h]
    · rw [List.dropWhile_cons_of_neg h]
      have hl : l.filter (fun x => !P x) = l := by
        rw [List.filter_eq_self]
        intro b hb
        simp only [Bool.not_eq_true']
        by_contra hPb
        rw [Bool.not_eq_false] at hPb
        exact h (hP a b (hs.1 b hb) hPb)
      simp [h, hl]

theorem takeWhile_eq_filter_of_sorted {P : Msg → Bool} {l : List Msg}
    (hs : SortedLe l) (hP : ∀ a b : Msg, a.1 ≤ b.1 → P b = true → P a = true) :
    l.takeWhile P = l.filter P := by
  induction l with
  | nil => rfl
  | cons a l ih =>
    rw [SortedLe, List.pairwise_cons] at hs
    by_cases h : P a
    · rw [List.takeWhile_cons_of_pos h, ih hs.2, List.filter_cons_of_pos h]
    · rw [List.takeWhile_cons_of_neg h, List.filter_cons_of_neg h]
      symm
      rw [List.filter_eq_nil_iff]
      intro b hb hPb
      exact h (hP a b (hs.1 b hb) hPb)

theorem rangeFrom_eq_filter {logs : List Msg} {v : Int} (hs : SortedLe logs) :
    rangeFrom logs v = logs.filter (fun p => v ≤ p.1) := by
  rw [rangeFrom, partitionPoint, drop_length_takeWhile,
    dropWhile_eq_filter_of_sorted hs (fun a b hab hb => by
      simp only [decide_eq_true_eq] at *
      exact lt_of_le_of_lt hab hb)]
  exact List.filter_congr (fun x _ => by
    rw [← decide_not]
    exact decide_eq_decide.mpr not_lt)

theorem rangeUpTo_eq_filter {logs : List Msg} {v : Int} (hs : SortedLe logs) :
    rangeUpTo logs v = logs.filter (fun p => p.1 ≤ v) := by
  rw [rangeUpTo, partitionPoint, take_length_takeWhile]
  exact takeWhile_eq_filter_of_sorted hs (fun a b hab hb => by
    simp only [decide_eq_true_eq] at *
    exact le_trans hab hb)

theorem drain_eq_filter {logs : List Msg} {v : Int} (hs : SortedLe logs) :
    drain logs v = logs.filter (fun p => v < p.1) := by
  rw [drain, partitionPoint, drop_length_takeWhile,
    dropWhile_eq_filter_of_sorted hs (fun a b hab hb => by
      simp only [decide_eq_true_eq] at *
      exact le_trans hab hb)]
  exact List.filter_congr (fun x _ => by
    rw [← decide_not]
    exact decide_eq_decide.mpr not_le)

theorem rangeFrom_sublist (logs : List Msg) (v : Int) : (rangeFrom logs v).Sublist logs :=
  List.drop_sublist _ _

theorem rangeUpTo_sublist (logs : List Msg) (v : Int) : (rangeUpTo logs v).Sublist logs :=
  List.take_sublist _ _

theorem drain_sublist (logs : List Msg) (v : Int) : (drain logs v).Sublist logs :=
  List.drop_sublist _ _

/-! Sorting lemmas for the committed-log re-sort. -/

instance : IsTotal Msg (fun a b : Msg => a.1 ≤ b.1) := ⟨fun a b => le_total a.1 b.1⟩

instance : IsTrans Msg (fun a b : Msg => a.1 ≤ b.1) := ⟨fun _ _ _ h1 h2 => le_trans h1 h2⟩

theorem sortByOffset_perm (l : List Msg) : (sortByOffset l).Perm l :=
  List.perm_insertionSort _ l

theorem sortByOffset_sorted (l : List Msg) : SortedLe (sortByOffset l) :=
  List.sorted_insertionSort _ l

/-! The last uncommitted offset bounds every offset in a strictly sorted log. -/

theorem offset_le_getLast_of_sortedLt {l : List Msg} {z : Msg} (hs : SortedLt l)
    (hz : l.getLast? = some z) : ∀ a ∈ l, a.1 ≤ z.1 := by
  induction l with
  | nil => simp at hz
  | cons b l ih =>
    rw [SortedLt, List.pairwise_cons] at hs
    cases l with
    | nil =>
      simp only [List.getLast?_singleton, Option.some.injEq] at hz
      subst hz
      intro a ha
      simp only [List.mem_singleton] at ha
      subst ha
      exact le_refl _
    | cons c l' =>
      rw [List.getLast?_cons_cons] at hz
      intro a ha
      rcases List.mem_cons.1 ha with rfl | ha'
      · have hzmem : z ∈ c :: l' := List.mem_of_mem_getLast? hz
        exact le_of_lt (hs.1 z hzmem)
      · exact ih hs.2 hz a ha'

end KafkaLog

namespace KafkaLog

/-! Frame lemmas for the two loops of the `Sync` handler. -/

theorem foldl_syncOffsetStep_commited_msgs (offsets : List (String × Int)) (n : Node) :
    (offsets.foldl syncOffsetStep n).commited_msgs = n.commited_msgs := by
  induction offsets generalizing n with
  | nil => rfl
  | cons kv tl ih =>
    rw [List.foldl_cons, ih]
    rfl

theorem foldl_syncOffsetStep_ongoing_syncs (offsets : List (String × Int)) (n : Node) :
    (offsets.foldl syncOffsetStep n).ongoing_syncs = n.ongoing_syncs := by
  induction offsets generalizing n with
  | nil => rfl
  | cons kv tl ih =>
    rw [List.foldl_cons, ih]
    rfl

theorem foldl_syncUpdateStep_uncommited_msgs (updates : List (String × List Msg)) (n : Node) :
    (updates.foldl syncUpdateStep n).uncommited_msgs = n.uncommited_msgs := by
  induction updates generalizing n with
  | nil => rfl
  | cons kv tl ih =>
    rw [List.foldl_cons, ih]
    rfl

theorem foldl_syncUpdateStep_commited_offsets (updates : List (String × List Msg)) (n : Node) :
    (updates.foldl syncUpdateStep n).commited_offsets = n.commited_offsets := by
  induction updates generalizing n with
  | nil => rfl
  | cons kv tl ih =>
    rw [List.foldl_cons, ih]
    rfl

theorem foldl_syncUpdateStep_ongoing_syncs (updates : List (String × List Msg)) (n : Node) :
    (updates.foldl syncUpdateStep n).ongoing_syncs = n.ongoing_syncs := by
  induction updates generalizing n with
  | nil => rfl
  | cons kv tl ih =>
    rw [List.foldl_cons, ih]
    rfl

/-! No handler ever inserts into `ongoing_syncs`: the map stays empty in every
reachable state. -/

theorem handle_ongoing_syncs_nil {n n' : Node} {req : Request} {out : List Response}
    (h : handle n req = some (n', out)) (hnil : n.ongoing_syncs = []) :
    n'.ongoing_syncs = [] := by
  obtain ⟨s, d, body⟩ := req
  cases body with
  | Init msg_id node_id node_ids =>
    simp only [handle] at h
    split at h
    · exact Option.noConfusion h
    · simp only [Option.some.injEq, Prod.mk.injEq] at h
      obtain ⟨h1, -⟩ := h
      rw [← h1]
      exact hnil
  | Topology msg_id topology =>
    simp only [handle] at h
    split at h
    · exact Option.noConfusion h
    · simp only [Option.some.injEq, Prod.mk.injEq] at h
      obtain ⟨h1, -⟩ := h
      rw [← h1]
      exact hnil
  | Send msg_id key msg =>
    simp only [handle, Option.some.injEq, Prod.mk.injEq] at h
    obtain ⟨h1, -⟩ := h
    rw [← h1]
    exact hnil
  | Poll msg_id offsets =>
    simp only [handle, Option.some.injEq, Prod.mk.injEq] at h
    obtain ⟨h1, -⟩ := h
    rw [← h1]
    exact hnil
  | CommitOffsets msg_id offsets =>
    simp only [handle, Option.some.injEq, Prod.mk.injEq] at h
    obtain ⟨h1, -⟩ := h
    rw [← h1]
    exact hnil
  | ListCommittedOffsets msg_id keys =>
    simp only [handle, Option.some.injEq, Prod.mk.injEq] at h
    obtain ⟨h1, -⟩ := h
    rw [← h1]
    exact hnil
  | Error =>
    simp only [handle, Option.some.injEq, Prod.mk.injEq] at h
    obtain ⟨h1, -⟩ := h
    rw [← h1]
    exact hnil
  | GetUpdates msg_id offsets =>
    simp only [handle, Option.some.injEq, Prod.mk.injEq] at h
    obtain ⟨h1, -⟩ := h
    rw [← h1]
    exact hnil
  | GetUpdatesOk in_reply_to updates =>
    exact Option.noConfusion h
  | Sync msg_id offsets updates =>
    simp only [handle, Option.some.injEq, Prod.mk.injEq] at h
    obtain ⟨h1, -⟩ := h
    rw [← h1, foldl_syncUpdateStep_ongoing_syncs, foldl_syncOffsetStep_ongoing_syncs]
    exact hnil
  | SyncOk in_reply_to =>
    simp only [handle] at h
    rw [hnil] at h
    exact Option.noConfusion h

theorem reachable_ongoing_syncs_nil {n : Node} (h : Reachable n) : n.ongoing_syncs = [] := by
  induction h with
  | init => rfl
  | step hr hstep ih => exact handle_ongoing_syncs_nil hstep ih

end KafkaLog

namespace KafkaLog

/-! Key-wise characterization of the two `Sync` loops. -/

theorem foldl_syncOffsetStep_uncommited_not_mem {offsets : List (String × Int)} {k : String}
    (hk : ∀ kv ∈ offsets, kv.1 ≠ k) (n : Node) :
    alLookup k (offsets.foldl syncOffsetStep n).uncommited_msgs
      = alLookup k n.uncommited_msgs := by
  induction offsets generalizing n with
  | nil => rfl
  | cons kv tl ih =>
    rw [List.foldl_cons, ih (fun x hx => hk x (List.mem_cons_of_mem _ hx))]
    exact alLookup_alModifyIfPresent_ne (Ne.symm (hk kv (List.mem_cons_self _ _))) _ _

theorem foldl_syncOffsetStep_offsets_not_mem {offsets : List (String × Int)} {k : String}
    (hk : ∀ kv ∈ offsets, kv.1 ≠ k) (n : Node) :
    alLookup k (offsets.foldl syncOffsetStep n).commited_offsets
      = alLookup k n.commited_offsets := by
  induction offsets generalizing n with
  | nil => rfl
  | cons kv tl ih =>
    rw [List.foldl_cons, ih (fun x hx => hk x (List.mem_cons_of_mem _ hx))]
    exact alLookup_alModify_ne (Ne.symm (hk kv (List.mem_cons_self _ _))) _ _

theorem foldl_syncOffsetStep_lookup_of_mem {offsets : List (String × Int)} {k : String} {v : Int}
    (hmem : (k, v) ∈ offsets) (hdist : offsets.Pairwise (fun a b => a.1 ≠ b.1)) (n : Node) :
    alLookup k (offsets.foldl syncOffsetStep n).uncommited_msgs
      = (alLookup k n.uncommited_msgs).map (fun logs => drain logs v) ∧
    alLookup k (offsets.foldl syncOffsetStep n).commited_offsets
      = some (advance (alLookup k n.commited_offsets) v) := by
  induction offsets generalizing n with
  | nil => simp at hmem
  | cons kv tl ih =>
    rw [List.pairwise_cons] at hdist
    rcases List.mem_cons.1 hmem with heq | hmem'
    · subst heq
      have hne : ∀ x ∈ tl, x.1 ≠ k := fun x hx => Ne.symm (hdist.1 x hx)
      constructor
      · rw [List.foldl_cons, foldl_syncOffsetStep_uncommited_not_mem hne]
        exact alLookup_alModifyIfPresent_self _ _ _
      · rw [List.foldl_cons, foldl_syncOffsetStep_offsets_not_mem hne]
        rw [show ((k, v) : String × Int).1 = k from rfl] at *
        exact alLookup_alModify_self _ _ _
    · have hkk : k ≠ kv.1 := by
        intro he
        exact hdist.1 (k, v) hmem' (he ▸ rfl)
      rw [List.foldl_cons]
      have step1 : alLookup k (syncOffsetStep n kv).uncommited_msgs
          = alLookup k n.uncommited_msgs := alLookup_alModifyIfPresent_ne hkk _ _
      have step2 : alLookup k (syncOffsetStep n kv).commited_offsets
          = alLookup k n.commited_offsets := alLookup_alModify_ne hkk _ _
      obtain ⟨ih1, ih2⟩ := ih hmem' hdist.2 (syncOffsetStep n kv)
      exact ⟨by rw [ih1, step1], by rw [ih2, step2]⟩

theorem foldl_syncUpdateStep_not_mem {updates : List (String × List Msg)} {k : String}
    (hk : ∀ kv ∈ updates, kv.1 ≠ k) (n : Node) :
    alLookup k (updates.foldl syncUpdateStep n).commited_msgs
      = alLookup k n.commited_msgs := by
  induction updates generalizing n with
  | nil => rfl
  | cons kv tl ih =>
    rw [List.foldl_cons, ih (fun x hx => hk x (List.mem_cons_of_mem _ hx))]
    exact alLookup_alModify_ne (Ne.symm (hk kv (List.mem_cons_self _ _))) _ _

theorem foldl_syncUpdateStep_lookup_of_mem {updates : List (String × List Msg)} {k : String}
    {rs : List Msg} (hmem : (k, rs) ∈ updates)
    (hdist : updates.Pairwise (fun a b => a.1 ≠ b.1)) (n : Node) :
    alLookup k (updates.foldl syncUpdateStep n).commited_msgs
      = some (sortByOffset ((alLookup k n.commited_msgs).getD [] ++ rs)) := by
  induction updates generalizing n with
  | nil => simp at hmem
  | cons kv tl ih =>
    rw [List.pairwise_cons] at hdist
    rcases List.mem_cons.1 hmem with heq | hmem'
    · subst heq
      have hne : ∀ x ∈ tl, x.1 ≠ k := fun x hx => Ne.symm (hdist.1 x hx)
      rw [List.foldl_cons, foldl_syncUpdateStep_not_mem hne]
      exact alLookup_alModify_self _ _ _
    · have hkk : k ≠ kv.1 := by
        intro he
        exact hdist.1 (k, rs) hmem' (he ▸ rfl)
      rw [List.foldl_cons]
      have step1 : alLookup k (syncUpdateStep n kv).commited_msgs
          = alLookup k n.commited_msgs := alLookup_alModify_ne hkk _ _
      rw [ih hmem' hdist.2, step1]

end KafkaLog

namespace KafkaLog

/-! Membership in a modified association list. -/

theorem mem_alModify {κ α : Type} [DecidableEq κ] {k : κ} {f : Option α → α}
    {m : List (κ × α)} {x : κ × α} (hx : x ∈ alModify k f m) :
    x ∈ m ∨ (∃ v, alLookup k m = some v ∧ x = (k, f (some v)))
      ∨ (alLookup k m = none ∧ x = (k, f none)) := by
  induction m with
  | nil =>
    simp only [alModify, List.mem_singleton] at hx
    exact Or.inr (Or.inr ⟨rfl, hx⟩)
  | cons hd tl ih =>
    obtain ⟨k', v⟩ := hd
    by_cases h : k' = k
    · subst h
      rw [alModify, if_pos rfl] at hx
      rcases List.mem_cons.1 hx with rfl | hx'
      · exact Or.inr (Or.inl ⟨v, by rw [alLookup, if_pos rfl], rfl⟩)
      · exact Or.inl (List.mem_cons_of_mem _ hx')
    · rw [alModify, if_neg h] at hx
      rcases List.mem_cons.1 hx with rfl | hx'
      · exact Or.inl (List.mem_cons_self _ _)
      · rcases ih hx' with hm | ⟨w, hw, hxw⟩ | ⟨hn, hxn⟩
        · exact Or.inl (List.mem_cons_of_mem _ hm)
        · exact Or.inr (Or.inl ⟨w, by rw [alLookup, if_neg h]; exact hw, hxw⟩)
        · exact Or.inr (Or.inr ⟨by rw [alLookup, if_neg h]; exact hn, hxn⟩)

theorem mem_alModifyIfPresent {κ α : Type} [DecidableEq κ] {k : κ} {f : α → α}
    {m : List (κ × α)} {x : κ × α} (hx : x ∈ alModifyIfPresent k f m) :
    x ∈ m ∨ ∃ y ∈ m, x = (y.1, f y.2) := by
  induction m with
  | nil => simp [alModifyIfPresent] at hx
  | cons hd tl ih =>
    obtain ⟨k', v⟩ := hd
    by_cases h : k' = k
    · rw [alModifyIfPresent, if_pos h] at hx
      rcases List.mem_cons.1 hx with rfl | hx'
      · exact Or.inr ⟨(k', v), List.mem_cons_self _ _, rfl⟩
      · exact Or.inl (List.mem_cons_of_mem _ hx')
    · rw [alModifyIfPresent, if_neg h] at hx
      rcases List.mem_cons.1 hx with rfl | hx'
      · exact Or.inl (List.mem_cons_self _ _)
      · rcases ih hx' with hm | ⟨y, hy, hxy⟩
        · exact Or.inl (List.mem_cons_of_mem _ hm)
        · exact Or.inr ⟨y, List.mem_cons_of_mem _ hy, hxy⟩

/-! The per-key sortedness invariant: uncommitted logs strictly increase by
offset, committed logs never decrease. -/

def LogsInv (n : Node) : Prop :=
  (∀ kv ∈ n.uncommited_msgs, SortedLt kv.2) ∧ (∀ kv ∈ n.commited_msgs, SortedLe kv.2)

theorem sortedLt_append_next {l : List Msg} (hs : SortedLt l) (m : Int) :
    SortedLt (l ++ [((match l.getLast? with | some x => x.1 + 1 | none => 0), m)]) := by
  rw [SortedLt, List.pairwise_append]
  refine ⟨hs, List.pairwise_singleton _ _, ?_⟩
  intro a ha b hb
  simp only [List.mem_singleton] at hb
  subst hb
  cases hz : l.getLast? with
  | none =>
    rw [List.getLast?_eq_none_iff] at hz
    subst hz
    simp at ha
  | some z =>
    have hle := offset_le_getLast_of_sortedLt hs hz a ha
    simpa using lt_of_le_of_lt hle (lt_add_one z.1)

theorem drain_sortedLt {l : List Msg} (hs : SortedLt l) (v : Int) : SortedLt (drain l v) :=
  List.Pairwise.sublist (drain_sublist l v) hs

theorem logsInv_syncOffsetStep {n : Node} (hi : LogsInv n) (kv : String × Int) :
    LogsInv (syncOffsetStep n kv) := by
  obtain ⟨hu, hc⟩ := hi
  refine ⟨?_, hc⟩
  intro x hx
  rcases mem_alModifyIfPresent hx with hm | ⟨y, hy, hxy⟩
  · exact hu x hm
  · rw [hxy]
    exact drain_sortedLt (hu y hy) kv.2

theorem logsInv_syncUpdateStep {n : Node} (hi : LogsInv n) (kv : String × List Msg) :
    LogsInv (syncUpdateStep n kv) := by
  obtain ⟨hu, hc⟩ := hi
  refine ⟨hu, ?_⟩
  intro x hx
  rcases mem_alModify hx with hm | ⟨w, _, hxw⟩ | ⟨_, hxn⟩
  · exact hc x hm
  · rw [hxw]
    exact sortByOffset_sorted _
  · rw [hxn]
    exact sortByOffset_sorted _

theorem logsInv_foldl_syncOffsetStep {n : Node} (hi : LogsInv n)
    (offsets : List (String × Int)) : LogsInv (offsets.foldl syncOffsetStep n) := by
  induction offsets generalizing n with
  | nil => exact hi
  | cons kv tl ih =>
    rw [List.foldl_cons]
    exact ih (logsInv_syncOffsetStep hi kv)

theorem logsInv_foldl_syncUpdateStep {n : Node} (hi : LogsInv n)
    (updates : List (String × List Msg)) : LogsInv (updates.foldl syncUpdateStep n) := by
  induction updates generalizing n with
  | nil => exact hi
  | cons kv tl ih =>
    rw [List.foldl_cons]
    exact ih (logsInv_syncUpdateStep hi kv)

end KafkaLog

namespace KafkaLog

theorem handle_logsInv {n n' : Node} {req : Request} {out : List Response}
    (h : handle n req = some (n', out)) (hi : LogsInv n) : LogsInv n' := by
  obtain ⟨hu, hc⟩ := hi
  obtain ⟨s, d, body⟩ := req
  cases body with
  | Init msg_id node_id node_ids =>
    simp only [handle] at h
    split at h
    · exact Option.noConfusion h
    · simp only [Option.some.injEq, Prod.mk.injEq] at h
      obtain ⟨h1, -⟩ := h
      rw [← h1]
      exact ⟨hu, hc⟩
  | Topology msg_id topology =>
    simp only [handle] at h
    split at h
    · exact Option.noConfusion h
    · simp only [Option.some.injEq, Prod.mk.injEq] at h
      obtain ⟨h1, -⟩ := h
      rw [← h1]
      exact ⟨hu, hc⟩
  | Send msg_id key msg =>
    simp only [handle, Option.some.injEq, Prod.mk.injEq] at h
    obtain ⟨h1, -⟩ := h
    rw [← h1]
    refine ⟨?_, hc⟩
    intro x hx
    rcases mem_alModify hx with hm | ⟨v, hv, hxv⟩ | ⟨hn, hxn⟩
    · exact hu x hm
    · rw [hxv, hv]
      simp only [Option.getD_some]
      exact sortedLt_append_next (hu (key, v) (alLookup_mem hv)) msg
    · rw [hxn, hn]
      simp only [Option.getD_none, List.nil_append]
      exact List.pairwise_singleton _ _
  | Poll msg_id offsets =>
    simp only [handle, Option.some.injEq, Prod.mk.injEq] at h
    obtain ⟨h1, -⟩ := h
    rw [← h1]
    exact ⟨hu, hc⟩
  | CommitOffsets msg_id offsets =>
    simp only [handle, Option.some.injEq, Prod.mk.injEq] at h
    obtain ⟨h1, -⟩ := h
    rw [← h1]
    exact ⟨hu, hc⟩
  | ListCommittedOffsets msg_id keys =>
    simp only [handle, Option.some.injEq, Prod.mk.injEq] at h
    obtain ⟨h1, -⟩ := h
    rw [← h1]
    exact ⟨hu, hc⟩
  | Error =>
    simp only [handle, Option.some.injEq, Prod.mk.injEq] at h
    obtain ⟨h1, -⟩ := h
    rw [← h1]
    exact ⟨hu, hc⟩
  | GetUpdates msg_id offsets =>
    simp only [handle, Option.some.injEq, Prod.mk.injEq] at h
    obtain ⟨h1, -⟩ := h
    rw [← h1]
    exact ⟨hu, hc⟩
  | GetUpdatesOk in_reply_to updates =>
    exact Option.noConfusion h
  | Sync msg_id offsets updates =>
    simp only [handle, Option.some.injEq, Prod.mk.injEq] at h
    obtain ⟨h1, -⟩ := h
    rw [← h1]
    exact logsInv_foldl_syncUpdateStep (logsInv_foldl_syncOffsetStep ⟨hu, hc⟩ offsets) updates
  | SyncOk in_reply_to =>
    simp only [handle] at h
    split at h
    · exact Option.noConfusion h
    · split at h <;>
        · simp only [Option.some.injEq, Prod.mk.injEq] at h
          obtain ⟨h1, -⟩ := h
          rw [← h1]
          exact ⟨hu, hc⟩

theorem reachable_logsInv {n : Node} (h : Reachable n) : LogsInv n := by
  induction h with
  | init => exact ⟨by simp [initialNode], by simp [initialNode]⟩
  | step hr hstep ih => exact handle_logsInv hstep ih

end KafkaLog

namespace KafkaLog

/-- C1: the claim says every CommitAck (`SyncOk`) finds its round's pending-ack
counter, the failure branch of the lookup being unreachable. In the code the
opposite holds: no handler ever inserts into `ongoing_syncs`, so in every
reachable state the map is empty and the `SyncOk` handler's counter lookup
fails (the `unwrap` at main.rs:247 panics) on every input. -/
theorem syncOk_lookup_always_fails (n : Node) (h : Reachable n) (s d : String) (i : Int) :
    handle n ⟨s, d, .SyncOk i⟩ = none := by
  have hnil := reachable_ongoing_syncs_nil h
  simp [handle, hnil, alLookup]

theorem syncOk_lookup_always_fails_witness :
    handle initialNode ⟨"n1", "n0", RequestBody.SyncOk 1⟩ = none :=
  syncOk_lookup_always_fails initialNode Reachable.init "n1" "n0" 1

/-- C2: in a state whose pending-ack table maps round `i` to counter 1, the
final `SyncOk` makes the handler reply `CommitOffsetsOk` to the *sender of
that `SyncOk`* (the acknowledging peer, `req.src`), not to any recorded
originating client (the node state records none), and the round's entry is
decremented to 0 but never removed from `ongoing_syncs`. -/
theorem syncOk_resolution_keeps_entry (n : Node) (s d : String) (i : Int)
    (h : alLookup i n.ongoing_syncs = some 1) :
    handle n ⟨s, d, .SyncOk i⟩
      = some ({ n with ongoing_syncs := alModifyIfPresent i (fun c => c - 1) n.ongoing_syncs },
          [⟨d, s, .CommitOffsetsOk i⟩]) ∧
    alLookup i (alModifyIfPresent i (fun c => c - 1) n.ongoing_syncs) = some 0 := by
  constructor
  · simp [handle, h]
  · rw [alLookup_alModifyIfPresent_self, h]
    rfl

theorem syncOk_resolution_keeps_entry_witness :
    handle { initialNode with ongoing_syncs := [(7, 1)] } ⟨"n2", "n0", RequestBody.SyncOk 7⟩
      = some ({ initialNode with ongoing_syncs := alModifyIfPresent 7 (fun c => c - 1) [(7, 1)] },
          [⟨"n0", "n2", ResponseBody.CommitOffsetsOk 7⟩]) ∧
    alLookup 7 (alModifyIfPresent 7 (fun c => c - 1) [(7, 1)]) = some 0 :=
  syncOk_resolution_keeps_entry { initialNode with ongoing_syncs := [(7, 1)] }
    "n2" "n0" 7 (by decide)

/-- C4: the claim says `Send` offsets stay strictly increasing and gap-free
even across commit rounds that drain the uncommitted tail. In the code the
offset is recomputed from the (possibly drained) uncommitted tail alone, so
after a `Sync` drains the tail the next `Send` re-assigns offset 0: the
evaluation below ends with two `Send`s on key "k" both answered with offset
0, with a draining commit round in between. -/
theorem send_offset_resets_after_drain :
    handle initialNode ⟨"c1", "n0", .Send 1 "k" 10⟩
      = some ({ initialNode with uncommited_msgs := [("k", [(0, 10)])] },
          [⟨"n0", "c1", .SendOk 1 0⟩]) ∧
    handle { initialNode with uncommited_msgs := [("k", [(0, 10)])] }
        ⟨"n1", "n0", .Sync 2 [("k", 0)] []⟩
      = some ({ initialNode with commited_offsets := [("k", 0)], uncommited_msgs := [("k", [])] },
          [⟨"n0", "n1", .SyncOk 2⟩]) ∧
    handle { initialNode with commited_offsets := [("k", 0)], uncommited_msgs := [("k", [])] }
        ⟨"c1", "n0", .Send 3 "k" 20⟩
      = some ({ initialNode with commited_offsets := [("k", 0)], uncommited_msgs := [("k", [(0, 20)])] },
          [⟨"n0", "c1", .SendOk 3 0⟩]) :=
  ⟨by decide, by decide, by decide⟩

/-- C7: the watermark update of a commit application takes the maximum of the
current value (or the incoming value when the key is new) and the incoming
offset; it never decreases the watermark, and re-applying the same or a
smaller value leaves it unchanged. -/
theorem advance_monotone_idempotent (x v w : Int) (h : w ≤ advance (some x) v) :
    advance none v = v ∧
    advance (some x) v = max v x ∧
    x ≤ advance (some x) v ∧
    advance (some (advance (some x) v)) w = advance (some x) v := by
  refine ⟨rfl, rfl, ?_, ?_⟩
  · simp [advance]
  · simp only [advance] at *
    exact max_eq_right h

theorem advance_monotone_idempotent_witness :
    advance none 5 = 5 ∧
    advance (some 1) 5 = max 5 1 ∧
    (1 : Int) ≤ advance (some 1) 5 ∧
    advance (some (advance (some 1) 5)) 3 = advance (some 1) 5 :=
  advance_monotone_idempotent 1 5 3 (by decide)

/-- C10: `Poll`, `ListCommittedOffsets` and `GetUpdates` are pure reads: the
handler returns the node state unchanged in every component. -/
theorem read_handlers_leave_state_unchanged (n : Node) (s d : String) (m : Int)
    (offsets : List (String × Int)) (keys : List String) :
    (∃ out, handle n ⟨s, d, .Poll m offsets⟩ = some (n, out)) ∧
    (∃ out, handle n ⟨s, d, .ListCommittedOffsets m keys⟩ = some (n, out)) ∧
    (∃ out, handle n ⟨s, d, .GetUpdates m offsets⟩ = some (n, out)) :=
  ⟨⟨_, rfl⟩, ⟨_, rfl⟩, ⟨_, rfl⟩⟩

end KafkaLog

namespace KafkaLog

theorem sortedLt_lookup_getD {m : List (String × List Msg)}
    (hs : ∀ kv ∈ m, SortedLt kv.2) (k : String) :
    SortedLt ((alLookup k m).getD []) := by
  cases hl : alLookup k m with
  | none => exact List.Pairwise.nil
  | some L => simpa using hs (k, L) (alLookup_mem hl)

/-- C5: `Poll` never fails and replies, per requested key, with exactly the
committed records at offset ≥ the requested offset, in strictly increasing
offset order (given the committed logs strictly increase, the invariant the
spec states for them); a key absent from the committed map yields `[]`. -/
theorem poll_returns_committed_suffix (n : Node) (s d : String) (m : Int)
    (offsets : List (String × Int)) (hs : ∀ kv ∈ n.commited_msgs, SortedLt kv.2) :
    handle n ⟨s, d, .Poll m offsets⟩
      = some (n, [⟨d, s, .PollOk m (offsets.map (fun kv =>
          (kv.1, ((alLookup kv.1 n.commited_msgs).getD []).filter (fun p => kv.2 ≤ p.1))))⟩]) ∧
    ∀ kv ∈ offsets,
      SortedLt (((alLookup kv.1 n.commited_msgs).getD []).filter (fun p => kv.2 ≤ p.1)) := by
  constructor
  · have hmap : offsets.map (fun kv =>
          (kv.1, rangeFrom ((alLookup kv.1 n.commited_msgs).getD []) kv.2))
        = offsets.map (fun kv =>
          (kv.1, ((alLookup kv.1 n.commited_msgs).getD []).filter (fun p => kv.2 ≤ p.1))) := by
      apply List.map_congr_left
      intro kv _
      rw [rangeFrom_eq_filter (sortedLt_lookup_getD hs kv.1).toLe]
    simp only [handle]
    rw [hmap]
  · intro kv _
    exact List.Pairwise.filter _ (sortedLt_lookup_getD hs kv.1)

theorem poll_returns_committed_suffix_witness :
    handle { initialNode with commited_msgs := [("k", [(0, 5), (2, 7)])] }
        ⟨"c1", "n0", .Poll 9 [("k", 1), ("z", 0), ("k", 3), ("k", -1)]⟩
      = some ({ initialNode with commited_msgs := [("k", [(0, 5), (2, 7)])] },
          [⟨"n0", "c1", .PollOk 9 ([("k", 1), ("z", 0), ("k", 3), ("k", -1)].map (fun kv =>
            (kv.1, ((alLookup kv.1 ({ initialNode with commited_msgs := [("k", [(0, 5), (2, 7)])] } : Node).commited_msgs).getD []).filter (fun p => kv.2 ≤ p.1))))⟩]) ∧
    ∀ kv ∈ [("k", 1), ("z", 0), ("k", 3), ("k", -1)],
      SortedLt (((alLookup kv.1 ({ initialNode with commited_msgs := [("k", [(0, 5), (2, 7)])] } : Node).commited_msgs).getD []).filter (fun p => kv.2 ≤ p.1)) :=
  poll_returns_committed_suffix { initialNode with commited_msgs := [("k", [(0, 5), (2, 7)])] }
    "c1" "n0" 9 [("k", 1), ("z", 0), ("k", 3), ("k", -1)] (by decide)

/-- C9: `GetUpdates` never fails and replies, per requested key, with exactly
the uncommitted records at offset ≤ the requested offset (the prefix the
symmetric partition-point search selects on the strictly increasing
uncommitted log); a key absent from the uncommitted map yields `[]`. -/
theorem getUpdates_returns_uncommitted_prefix (n : Node) (s d : String) (m : Int)
    (offsets : List (String × Int)) (hs : ∀ kv ∈ n.uncommited_msgs, SortedLt kv.2) :
    handle n ⟨s, d, .GetUpdates m offsets⟩
      = some (n, [⟨d, s, .PollOk m (offsets.map (fun kv =>
          (kv.1, ((alLookup kv.1 n.uncommited_msgs).getD []).filter (fun p => p.1 ≤ kv.2))))⟩]) := by
  have hmap : offsets.map (fun kv =>
        (kv.1, rangeUpTo ((alLookup kv.1 n.uncommited_msgs).getD []) kv.2))
      = offsets.map (fun kv =>
        (kv.1, ((alLookup kv.1 n.uncommited_msgs).getD []).filter (fun p => p.1 ≤ kv.2))) := by
    apply List.map_congr_left
    intro kv _
    rw [rangeUpTo_eq_filter (sortedLt_lookup_getD hs kv.1).toLe]
  simp only [handle]
  rw [hmap]

theorem getUpdates_returns_uncommitted_prefix_witness :
    handle { initialNode with uncommited_msgs := [("k", [(0, 5), (2, 7)])] }
        ⟨"n1", "n0", .GetUpdates 4 [("k", 0), ("z", 9), ("k", 5)]⟩
      = some ({ initialNode with uncommited_msgs := [("k", [(0, 5), (2, 7)])] },
          [⟨"n0", "n1", .PollOk 4 ([("k", 0), ("z", 9), ("k", 5)].map (fun kv =>
            (kv.1, ((alLookup kv.1 ({ initialNode with uncommited_msgs := [("k", [(0, 5), (2, 7)])] } : Node).uncommited_msgs).getD []).filter (fun p => p.1 ≤ kv.2))))⟩]) :=
  getUpdates_returns_uncommitted_prefix
    { initialNode with uncommited_msgs := [("k", [(0, 5), (2, 7)])] }
    "n1" "n0" 4 [("k", 0), ("z", 9), ("k", 5)] (by decide)

end KafkaLog

namespace KafkaLog

/-- C6: a `Sync` with offset map `O` and record map `U` always succeeds and
replies `SyncOk`; for every key of `O` it removes from the uncommitted log
exactly the records at offset ≤ `O[k]` (given the uncommitted logs strictly
increase, their invariant) and advances the watermark to the maximum of its
current value and `O[k]`; for every key of `U` the new committed log is a
permutation of the old one with `U[k]` appended, re-sorted by offset. -/
theorem sync_applies_commit_and_acks (n : Node) (s d : String) (m : Int)
    (offsets : List (String × Int)) (updates : List (String × List Msg))
    (hoff : offsets.Pairwise (fun a b => a.1 ≠ b.1))
    (hupd : updates.Pairwise (fun a b => a.1 ≠ b.1))
    (hs : ∀ kv ∈ n.uncommited_msgs, SortedLt kv.2) :
    ∃ n', handle n ⟨s, d, .Sync m offsets updates⟩ = some (n', [⟨d, s, .SyncOk m⟩]) ∧
      (∀ k v, (k, v) ∈ offsets →
        alLookup k n'.uncommited_msgs
          = (alLookup k n.uncommited_msgs).map (fun L => L.filter (fun p => v < p.1)) ∧
        alLookup k n'.commited_offsets = some (advance (alLookup k n.commited_offsets) v)) ∧
      (∀ k rs, (k, rs) ∈ updates →
        ∃ L', alLookup k n'.commited_msgs = some L' ∧
          L'.Perm ((alLookup k n.commited_msgs).getD [] ++ rs) ∧ SortedLe L') := by
  refine ⟨updates.foldl syncUpdateStep (offsets.foldl syncOffsetStep n), rfl, ?_, ?_⟩
  · intro k v hkv
    obtain ⟨h1, h2⟩ := foldl_syncOffsetStep_lookup_of_mem hkv hoff n
    constructor
    · rw [foldl_syncUpdateStep_uncommited_msgs, h1]
      cases hl : alLookup k n.uncommited_msgs with
      | none => rfl
      | some L =>
        have hL : SortedLt L := by simpa using hs (k, L) (alLookup_mem hl)
        simp only [Option.map_some']
        rw [drain_eq_filter hL.toLe]
    · rw [foldl_syncUpdateStep_commited_offsets, h2]
  · intro k rs hkrs
    refine ⟨sortByOffset ((alLookup k n.commited_msgs).getD [] ++ rs), ?_, ?_, ?_⟩
    · rw [foldl_syncUpdateStep_lookup_of_mem hkrs hupd, foldl_syncOffsetStep_commited_msgs]
    · exact sortByOffset_perm _
    · exact sortByOffset_sorted _

theorem sync_applies_commit_and_acks_witness :
    ∃ n', handle { initialNode with uncommited_msgs := [("k", [(0, 5), (1, 6)])], commited_msgs := [("k", [(0, 5)])] }
        ⟨"n1", "n0", .Sync 8 [("k", 0)] [("k", [(1, 6)])]⟩ = some (n', [⟨"n0", "n1", .SyncOk 8⟩]) ∧
      (∀ k v, (k, v) ∈ [("k", (0 : Int))] →
        alLookup k n'.uncommited_msgs
          = (alLookup k ({ initialNode with uncommited_msgs := [("k", [(0, 5), (1, 6)])], commited_msgs := [("k", [(0, 5)])] } : Node).uncommited_msgs).map (fun L => L.filter (fun p => v < p.1)) ∧
        alLookup k n'.commited_offsets = some (advance (alLookup k ({ initialNode with uncommited_msgs := [("k", [(0, 5), (1, 6)])], commited_msgs := [("k", [(0, 5)])] } : Node).commited_offsets) v)) ∧
      (∀ k rs, (k, rs) ∈ [("k", [((1 : Int), (6 : Int))])] →
        ∃ L', alLookup k n'.commited_msgs = some L' ∧
          L'.Perm ((alLookup k ({ initialNode with uncommited_msgs := [("k", [(0, 5), (1, 6)])], commited_msgs := [("k", [(0, 5)])] } : Node).commited_msgs).getD [] ++ rs) ∧ SortedLe L') :=
  sync_applies_commit_and_acks
    { initialNode with uncommited_msgs := [("k", [(0, 5), (1, 6)])], commited_msgs := [("k", [(0, 5)])] }
    "n1" "n0" 8 [("k", 0)] [("k", [(1, 6)])] (by decide) (by decide) (by decide)

/-- C8 counterexample: two `Sync` broadcasts carrying the same record for key
"k" are both processed from the start state; after the second, the committed
log of "k" is `[(0, 7), (0, 7)]`, whose offsets are not strictly increasing —
the re-sort on merge keeps duplicate offsets. -/
theorem committed_duplicate_offsets :
    handle initialNode ⟨"n1", "n0", .Sync 1 [] [("k", [(0, 7)])]⟩
      = some ({ initialNode with commited_msgs := [("k", [(0, 7)])] }, [⟨"n0", "n1", .SyncOk 1⟩]) ∧
    handle { initialNode with commited_msgs := [("k", [(0, 7)])] }
        ⟨"n1", "n0", .Sync 2 [] [("k", [(0, 7)])]⟩
      = some ({ initialNode with commited_msgs := [("k", [(0, 7), (0, 7)])] }, [⟨"n0", "n1", .SyncOk 2⟩]) ∧
    ¬ SortedLt [(0, 7), (0, 7)] :=
  ⟨by decide, by decide, by decide⟩

/-- C8 amended: after any sequence of processed messages, the offsets within
every uncommitted log are strictly increasing, and the offsets within every
committed log are non-decreasing (sorted; duplicate offsets can remain when a
broadcast repeats an already-committed offset). -/
theorem reachable_logs_sorted (n : Node) (h : Reachable n) :
    (∀ kv ∈ n.uncommited_msgs, SortedLt kv.2) ∧ (∀ kv ∈ n.commited_msgs, SortedLe kv.2) :=
  reachable_logsInv h

theorem reachable_logs_sorted_witness :
    (∀ kv ∈ ({ initialNode with commited_msgs := [("k", [(0, 7)])] } : Node).uncommited_msgs, SortedLt kv.2) ∧
    (∀ kv ∈ ({ initialNode with commited_msgs := [("k", [(0, 7)])] } : Node).commited_msgs, SortedLe kv.2) :=
  reachable_logs_sorted { initialNode with commited_msgs := [("k", [(0, 7)])] }
    (@Reachable.step initialNode { initialNode with commited_msgs := [("k", [(0, 7)])] }
      ⟨"n1", "n0", .Sync 1 [] [("k", [(0, 7)])]⟩ [⟨"n0", "n1", .SyncOk 1⟩]
      Reachable.init (by decide))

end KafkaLog
